import Mathlib

/-!
Verification of the edit-distance engine of `levenshtein_explainer.py`.

The source function `levenshtein_with_operations(str1, str2)` builds the
(m+1)×(n+1) dynamic-programming table `dp`, reads the distance from
`dp[m][n]`, then backtracks from the cursor `(m, n)` to `(0, 0)` through the
elif-chain (match / substitute / delete / insert), appending a textual
operation at every non-match step, and finally reverses the operation list.

The embedding below models:
  * the table (`dpRow`, `dpTable`) exactly following the source recurrence,
    with `List.getD` standing for the (always in-range) `str1[i-1]` accesses;
  * the operations as a tagged type `EditOp` carrying the positions and
    elements the source interpolates into its strings;
  * the backtrace while-loop as fuel-indexed recursion `backAux`
    (the `none` result models the loop failing to make progress, which is
    proved unreachable for fuel `i + j`);
  * the full function as `levenshtein_with_operations`.

A reference definition of Levenshtein distance is given by single-element
edit steps (`EditStep`) and the `Transforms k` relation (`k` edit
operations), and the table value is proved to be the least such `k`.
-/

section LevenshteinExplainer

variable {α : Type} [DecidableEq α] [Inhabited α]

/-- One edit operation, as printed by the source: `替换位置{i}的'{a}'为'{b}'`
(substitute), `删除位置{i}的'{a}'` (delete), `在位置{i+1}插入'{b}'` (insert). -/
inductive EditOp (α : Type) : Type
  | substitute (pos : Nat) (old new : α) : EditOp α
  | delete (pos : Nat) (a : α) : EditOp α
  | insert (pos : Nat) (a : α) : EditOp α
deriving DecidableEq, Repr

/-- Row `i+1` of the DP table, computed from row `i` (`prev`) and the element
`a = str1[i]`, following the source's inner loop: the first cell is
`dp[i+1][0] = i+1 = prev 0 + 1`, and
`dp[i+1][j+1] = prev j` when `str1[i] == str2[j]`, else
`1 + min(delete, insert, substitute)` in the source's order
`min(dp[i][j+1] + 1, dp[i+1][j] + 1, dp[i][j] + 1)`. -/
def dpRow (B : List α) (prev : Nat → Nat) (a : α) : Nat → Nat
  | 0 => prev 0 + 1
  | j + 1 =>
    if a = B.getD j default then prev j
    else min (prev (j + 1) + 1) (min (dpRow B prev a j + 1) (prev j + 1))

/-- The DP table of the source: `dpTable A B i j` is `dp[i][j]`.
Row 0 is `0, 1, 2, …` (the source's `dp[0][j] = j` initialisation);
each later row is filled by `dpRow`. -/
def dpTable (A B : List α) : Nat → Nat → Nat
  | 0 => fun j => j
  | i + 1 => dpRow B (dpTable A B i) (A.getD i default)

/-- The backtrace while-loop of the source, as fuel-indexed recursion.
The cursor starts at `(m, n)`; the loop body is the elif-chain
match → substitute → delete → insert, the first true condition winning.
`none` models the case where no condition holds and the Python loop would
spin forever; it is proved unreachable when `fuel ≥ i + j`.
The returned list is in discovery order (the source reverses it at the end). -/
def backAux (A B : List α) (fuel i j : Nat) : Option (List (EditOp α)) :=
  if i = 0 ∧ j = 0 then some []
  else
    match fuel with
    | 0 => none
    | fuel + 1 =>
      if 0 < i ∧ 0 < j ∧ A.getD (i - 1) default = B.getD (j - 1) default then
        backAux A B fuel (i - 1) (j - 1)
      else if 0 < i ∧ 0 < j ∧ dpTable A B i j = dpTable A B (i - 1) (j - 1) + 1 then
        (backAux A B fuel (i - 1) (j - 1)).map
          (fun ops => EditOp.substitute i (A.getD (i - 1) default) (B.getD (j - 1) default) :: ops)
      else if 0 < i ∧ dpTable A B i j = dpTable A B (i - 1) j + 1 then
        (backAux A B fuel (i - 1) j).map
          (fun ops => EditOp.delete i (A.getD (i - 1) default) :: ops)
      else if 0 < j ∧ dpTable A B i j = dpTable A B i (j - 1) + 1 then
        (backAux A B fuel i (j - 1)).map
          (fun ops => EditOp.insert (i + 1) (B.getD (j - 1) default) :: ops)
      else none

/-- The full source function: returns `dp[m][n]` and the reversed backtrace
operation list (fuel `m + n` suffices, as proved below). -/
def levenshtein_with_operations (A B : List α) : Nat × Option (List (EditOp α)) :=
  (dpTable A B A.length B.length,
    (backAux A B (A.length + B.length) A.length B.length).map List.reverse)

/-- The four transition conditions of the backtrace loop body, exactly as the
source's elif-chain tests them (match, substitute, delete, insert). -/
def StepCond (A B : List α) (i j : Nat) : Prop :=
  (0 < i ∧ 0 < j ∧ A.getD (i - 1) default = B.getD (j - 1) default)
  ∨ (0 < i ∧ 0 < j ∧ dpTable A B i j = dpTable A B (i - 1) (j - 1) + 1)
  ∨ (0 < i ∧ dpTable A B i j = dpTable A B (i - 1) j + 1)
  ∨ (0 < j ∧ dpTable A B i j = dpTable A B i (j - 1) + 1)

/-- Reference definition, textbook front recursion (helper for the cons case:
`levAux (lev xs) x ys = lev (x :: xs) ys`). -/
def levAux (f : List α → Nat) (x : α) : List α → Nat
  | [] => f [] + 1
  | y :: ys =>
    if x = y then f ys
    else min (f (y :: ys) + 1) (min (levAux f x ys + 1) (f ys + 1))

/-- Reference Levenshtein distance by structural recursion (front elements). -/
def lev : List α → List α → Nat
  | [], ys => ys.length
  | x :: xs, ys => levAux (lev xs) x ys

/-- A single edit step on a sequence: insert one element, delete one element,
or substitute one element (the spec's glossary of edit operations). -/
inductive EditStep : List α → List α → Prop
  | ins (u v : List α) (a : α) : EditStep (u ++ v) (u ++ a :: v)
  | del (u v : List α) (a : α) : EditStep (u ++ a :: v) (u ++ v)
  | sub (u v : List α) (a b : α) : EditStep (u ++ a :: v) (u ++ b :: v)

/-- `Transforms k X Y`: `Y` is reachable from `X` by exactly `k` single-element
edit steps.  The minimum such `k` is the Levenshtein distance of the spec. -/
def Transforms : Nat → List α → List α → Prop
  | 0, X, Y => X = Y
  | k + 1, X, Y => ∃ Z, EditStep X Z ∧ Transforms k Z Y

/-- The position recorded inside an edit operation. -/
def opPos : EditOp α → Nat
  | .substitute q _ _ => q
  | .delete q _ => q
  | .insert q _ => q

/-- Applying one list of operations in a single left-to-right pass over the
input, with every recorded position read as a 1-based anchor into the
ORIGINAL sequence: `p` is the running original position (starting at 1),
delete/substitute act on the original element number `q`, and insert places
its element just before original position `q` (several inserts with the same
anchor apply in script order).  Elements whose position carries no operation
are copied unchanged. -/
def patchOne (op : EditOp α) (k : List α → Nat → Option (List α)) :
    List α → Nat → Option (List α)
  | rest, p =>
    if opPos op = p then
      match op, rest with
      | .insert _ e, rest => (k rest p).map (fun t => e :: t)
      | .delete _ _, [] => none
      | .delete _ a, x :: rest => if x = a then k rest (p + 1) else none
      | .substitute _ _ _, [] => none
      | .substitute _ a b, x :: rest =>
        if x = a then (k rest (p + 1)).map (fun t => b :: t) else none
    else
      match rest with
      | [] => none
      | x :: rest => (patchOne op k rest (p + 1)).map (fun t => x :: t)

/-- See `patchOne`: `patch ops rest p` applies the script `ops` to the
sequence `rest` whose first element has original position `p`. -/
def patch : List (EditOp α) → List α → Nat → Option (List α)
  | [], rest, _ => some rest
  | op :: ops, rest, p => patchOne op (patch ops) rest p

/-- Modelled from the spec: applying one operation with the position
convention the spec states, read per operation: delete/substitute positions
are 1-based indices into the string as it stands just before the operation
applies, and an insert position is the 1-based index at which the inserted
element sits in the string just after the operation applies. -/
def applyOpSpec (s : List α) : EditOp α → Option (List α)
  | .substitute q _ b =>
    if q - 1 < s.length then some (s.set (q - 1) b) else none
  | .delete q _ =>
    if q - 1 < s.length then some (s.eraseIdx (q - 1)) else none
  | .insert q e =>
    if q - 1 ≤ s.length then some (s.take (q - 1) ++ e :: s.drop (q - 1)) else none

/-- Modelled from the spec: applying a whole script, in order, with the
spec's stated position convention (see `applyOpSpec`). -/
def applySpec (s : List α) (ops : List (EditOp α)) : Option (List α) :=
  ops.foldl (fun acc op => acc.bind (fun t => applyOpSpec t op)) (some s)

/-- Is the operation a delete? -/
def isDel : EditOp α → Bool
  | .delete _ _ => true
  | _ => false

/-- Is the operation an insert? -/
def isIns : EditOp α → Bool
  | .insert _ _ => true
  | _ => false

/-- Position discipline actually satisfied by the emitted operations:
delete/substitute positions are 1-based indices of the affected element in
the ORIGINAL first sequence, and insert positions are anchors `q` with
`1 ≤ q ≤ len A + 1` (the insertion point just before original position `q`). -/
def PosOK (A : List α) : EditOp α → Prop
  | .delete q a => A[q - 1]? = some a
  | .substitute q a _ => A[q - 1]? = some a
  | .insert q _ => 1 ≤ q ∧ q ≤ A.length + 1

end LevenshteinExplainer

section Proofs

set_option linter.unusedSectionVars false

variable {α : Type} [DecidableEq α] [Inhabited α]

/-- Unfolding `lev` on a cons pair: the front recurrence. -/
theorem lev_cons_cons (x y : α) (xs ys : List α) :
    lev (x :: xs) (y :: ys) =
      if x = y then lev xs ys
      else min (lev xs (y :: ys) + 1) (min (lev (x :: xs) ys + 1) (lev xs ys + 1)) := rfl

/-- `lev` against the empty sequence on the right counts the left sequence. -/
theorem lev_nil_right (xs : List α) : lev xs [] = xs.length := by
  induction xs with
  | nil => rfl
  | cons x xs ih =>
    show lev xs [] + 1 = xs.length + 1
    rw [ih]

/-- `lev` against the empty sequence on the left counts the right sequence. -/
theorem lev_nil_left (ys : List α) : lev [] ys = ys.length := rfl

/-- Identical sequences have reference distance 0. -/
theorem lev_self (xs : List α) : lev xs xs = 0 := by
  induction xs with
  | nil => rfl
  | cons x xs ih => rw [lev_cons_cons, if_pos rfl, ih]

/-- Joint adjacent-cell bound: prepending one element to either argument of
`lev` changes the value by at most one, in all four directions.  Proved by
strong induction on the total length. -/
theorem lev_adj (n : Nat) : ∀ X Y : List α, X.length + Y.length ≤ n →
    (∀ a, lev (a :: X) Y ≤ lev X Y + 1) ∧
    (∀ y, lev X (y :: Y) ≤ lev X Y + 1) ∧
    (∀ a, lev X Y ≤ lev (a :: X) Y + 1) ∧
    (∀ y, lev X Y ≤ lev X (y :: Y) + 1) := by
  induction n with
  | zero =>
    intro X Y h
    have hX : X = [] := by
      cases X with
      | nil => rfl
      | cons x xs => simp at h
    have hY : Y = [] := by
      cases Y with
      | nil => rfl
      | cons y ys => cases X <;> simp at h
    subst hX; subst hY
    refine ⟨fun a => ?_, fun y => ?_, fun a => ?_, fun y => ?_⟩ <;>
      simp [lev_nil_right, lev_nil_left]
  | succ n ih =>
    intro X Y h
    refine ⟨fun a => ?_, fun y => ?_, fun a => ?_, fun y => ?_⟩
    · -- B1 : lev (a :: X) Y ≤ lev X Y + 1
      cases Y with
      | nil => simp [lev_nil_right]
      | cons y ys =>
        rw [lev_cons_cons]
        by_cases hay : a = y
        · rw [if_pos hay]
          have hb4 := (ih X ys (by simp at h; omega)).2.2.2 y
          exact hb4
        · rw [if_neg hay]
          omega
    · -- B2 : lev X (y :: Y) ≤ lev X Y + 1
      cases X with
      | nil => simp [lev_nil_left]
      | cons x xs =>
        rw [lev_cons_cons]
        by_cases hxy : x = y
        · rw [if_pos hxy]
          have hb3 := (ih xs Y (by simp at h; omega)).2.2.1 x
          exact hb3
        · rw [if_neg hxy]
          omega
    · -- B3 : lev X Y ≤ lev (a :: X) Y + 1
      cases Y with
      | nil => simp [lev_nil_right]; omega
      | cons y ys =>
        rw [lev_cons_cons]
        by_cases hay : a = y
        · rw [if_pos hay]
          have hb2 := (ih X ys (by simp at h; omega)).2.1 y
          exact hb2
        · rw [if_neg hay]
          have hb2 := (ih X ys (by simp at h; omega)).2.1 y
          have hb3 := (ih X ys (by simp at h; omega)).2.2.1 a
          omega
    · -- B4 : lev X Y ≤ lev X (y :: Y) + 1
      cases X with
      | nil => simp [lev_nil_left]; omega
      | cons x xs =>
        rw [lev_cons_cons]
        by_cases hxy : x = y
        · rw [if_pos hxy]
          have hb1 := (ih xs Y (by simp at h; omega)).1 x
          exact hb1
        · rw [if_neg hxy]
          have hb1 := (ih xs Y (by simp at h; omega)).1 x
          have hb4 := (ih xs Y (by simp at h; omega)).2.2.2 y
          omega

/-- Deleting the head costs at most one. -/
theorem lev_cons_le (a : α) (X Y : List α) : lev (a :: X) Y ≤ lev X Y + 1 :=
  (lev_adj (X.length + Y.length) X Y le_rfl).1 a

/-- Inserting at the head of the target costs at most one. -/
theorem lev_target_cons_le (y : α) (X Y : List α) : lev X (y :: Y) ≤ lev X Y + 1 :=
  (lev_adj (X.length + Y.length) X Y le_rfl).2.1 y

/-- Removing the head of the source drops the distance by at most one. -/
theorem lev_le_cons (a : α) (X Y : List α) : lev X Y ≤ lev (a :: X) Y + 1 :=
  (lev_adj (X.length + Y.length) X Y le_rfl).2.2.1 a

/-- Removing the head of the target drops the distance by at most one. -/
theorem lev_le_target_cons (y : α) (X Y : List α) : lev X Y ≤ lev X (y :: Y) + 1 :=
  (lev_adj (X.length + Y.length) X Y le_rfl).2.2.2 y

/-- Substituting the head element changes the distance by at most one. -/
theorem lev_sub_head (a b : α) (v : List α) :
    ∀ Y, lev (a :: v) Y ≤ lev (b :: v) Y + 1 := by
  intro Y
  induction Y with
  | nil => simp [lev_nil_right]
  | cons y ys ih =>
    rw [lev_cons_cons, lev_cons_cons]
    by_cases ha : a = y <;> by_cases hb : b = y
    · rw [if_pos ha, if_pos hb]; omega
    · rw [if_pos ha, if_neg hb]
      have h1 := lev_le_target_cons y v ys
      have h2 := lev_le_cons b v ys
      omega
    · rw [if_neg ha, if_pos hb]; omega
    · rw [if_neg ha, if_neg hb]; omega

/-- Substituting an element at any position changes the distance by at most
one. -/
theorem lev_sub_at (a b : α) (v : List α) :
    ∀ (u Y : List α), lev (u ++ a :: v) Y ≤ lev (u ++ b :: v) Y + 1 := by
  intro u
  induction u with
  | nil => intro Y; simpa using lev_sub_head a b v Y
  | cons x u ihu =>
    intro Y
    induction Y with
    | nil => simp [lev_nil_right]
    | cons y ys ihY =>
      show lev (x :: (u ++ a :: v)) (y :: ys) ≤ lev (x :: (u ++ b :: v)) (y :: ys) + 1
      rw [lev_cons_cons, lev_cons_cons]
      by_cases hxy : x = y
      · rw [if_pos hxy, if_pos hxy]
        exact ihu ys
      · rw [if_neg hxy, if_neg hxy]
        have h1 := ihu (y :: ys)
        have h2 : lev (x :: (u ++ a :: v)) ys ≤ lev (x :: (u ++ b :: v)) ys + 1 := ihY
        have h3 := ihu ys
        omega

/-- Deleting an element at any position changes the distance by at most one. -/
theorem lev_del_at (a : α) (v : List α) :
    ∀ (u Y : List α), lev (u ++ a :: v) Y ≤ lev (u ++ v) Y + 1 := by
  intro u
  induction u with
  | nil => intro Y; simpa using lev_cons_le a v Y
  | cons x u ihu =>
    intro Y
    induction Y with
    | nil => simp [lev_nil_right]; omega
    | cons y ys ihY =>
      show lev (x :: (u ++ a :: v)) (y :: ys) ≤ lev (x :: (u ++ v)) (y :: ys) + 1
      rw [lev_cons_cons, lev_cons_cons]
      by_cases hxy : x = y
      · rw [if_pos hxy, if_pos hxy]
        exact ihu ys
      · rw [if_neg hxy, if_neg hxy]
        have h1 := ihu (y :: ys)
        have h2 : lev (x :: (u ++ a :: v)) ys ≤ lev (x :: (u ++ v)) ys + 1 := ihY
        have h3 := ihu ys
        omega

/-- Inserting an element at any position changes the distance by at most one. -/
theorem lev_ins_at (a : α) (v : List α) :
    ∀ (u Y : List α), lev (u ++ v) Y ≤ lev (u ++ a :: v) Y + 1 := by
  intro u
  induction u with
  | nil => intro Y; simpa using lev_le_cons a v Y
  | cons x u ihu =>
    intro Y
    induction Y with
    | nil => simp [lev_nil_right]; omega
    | cons y ys ihY =>
      show lev (x :: (u ++ v)) (y :: ys) ≤ lev (x :: (u ++ a :: v)) (y :: ys) + 1
      rw [lev_cons_cons, lev_cons_cons]
      by_cases hxy : x = y
      · rw [if_pos hxy, if_pos hxy]
        exact ihu ys
      · rw [if_neg hxy, if_neg hxy]
        have h1 := ihu (y :: ys)
        have h2 : lev (x :: (u ++ v)) ys ≤ lev (x :: (u ++ a :: v)) ys + 1 := ihY
        have h3 := ihu ys
        omega

/-- One edit step on the source sequence changes the reference distance by at
most one. -/
theorem lev_step_le {X Z : List α} (h : EditStep X Z) (Y : List α) :
    lev X Y ≤ lev Z Y + 1 := by
  cases h with
  | ins u v a => exact lev_ins_at a v u Y
  | del u v a => exact lev_del_at a v u Y
  | sub u v a b => exact lev_sub_at a b v u Y

/-- Edit steps are preserved by prepending a common element. -/
theorem editStep_cons (c : α) {X Y : List α} (h : EditStep X Y) :
    EditStep (c :: X) (c :: Y) := by
  cases h with
  | ins u v a => exact EditStep.ins (c :: u) v a
  | del u v a => exact EditStep.del (c :: u) v a
  | sub u v a b => exact EditStep.sub (c :: u) v a b

/-- Edit steps are symmetric: insert and delete swap, substitute flips. -/
theorem editStep_symm {X Y : List α} (h : EditStep X Y) : EditStep Y X := by
  cases h with
  | ins u v a => exact EditStep.del u v a
  | del u v a => exact EditStep.ins u v a
  | sub u v a b => exact EditStep.sub u v b a

/-- Edit steps are preserved by reversing both sequences. -/
theorem editStep_reverse {X Y : List α} (h : EditStep X Y) :
    EditStep X.reverse Y.reverse := by
  cases h with
  | ins u v a =>
    have h1 : (u ++ v).reverse = v.reverse ++ u.reverse := by simp
    have h2 : (u ++ a :: v).reverse = v.reverse ++ a :: u.reverse := by simp
    rw [h1, h2]
    exact EditStep.ins v.reverse u.reverse a
  | del u v a =>
    have h1 : (u ++ v).reverse = v.reverse ++ u.reverse := by simp
    have h2 : (u ++ a :: v).reverse = v.reverse ++ a :: u.reverse := by simp
    rw [h1, h2]
    exact EditStep.del v.reverse u.reverse a
  | sub u v a b =>
    have h1 : (u ++ a :: v).reverse = v.reverse ++ a :: u.reverse := by simp
    have h2 : (u ++ b :: v).reverse = v.reverse ++ b :: u.reverse := by simp
    rw [h1, h2]
    exact EditStep.sub v.reverse u.reverse a b

/-- Scripts are preserved by prepending a common element. -/
theorem transforms_cons (c : α) : ∀ k {X Y : List α}, Transforms k X Y →
    Transforms k (c :: X) (c :: Y) := by
  intro k
  induction k with
  | zero => intro X Y h; exact congrArg (c :: ·) h
  | succ k ih =>
    intro X Y h
    obtain ⟨Z, hs, ht⟩ := h
    exact ⟨c :: Z, editStep_cons c hs, ih ht⟩

/-- A script may be extended by one edit step at its end. -/
theorem transforms_snoc : ∀ k {X Y Z : List α}, Transforms k X Y →
    EditStep Y Z → Transforms (k + 1) X Z := by
  intro k
  induction k with
  | zero =>
    intro X Y Z h hs
    subst h
    exact ⟨Z, hs, rfl⟩
  | succ k ih =>
    intro X Y Z h hs
    obtain ⟨W, hw, ht⟩ := h
    exact ⟨W, hw, ih ht hs⟩

/-- Scripts reverse: each step undoes, so `Transforms` is symmetric. -/
theorem transforms_symm : ∀ k {X Y : List α}, Transforms k X Y →
    Transforms k Y X := by
  intro k
  induction k with
  | zero => intro X Y h; exact h.symm
  | succ k ih =>
    intro X Y h
    obtain ⟨Z, hs, ht⟩ := h
    exact transforms_snoc k (ih ht) (editStep_symm hs)

/-- Scripts compose: `k₁` steps then `k₂` steps give `k₁ + k₂` steps. -/
theorem transforms_trans : ∀ (k₁ k₂ : Nat) {X Y Z : List α},
    Transforms k₁ X Y → Transforms k₂ Y Z → Transforms (k₁ + k₂) X Z := by
  intro k₁
  induction k₁ with
  | zero =>
    intro k₂ X Y Z h₁ h₂
    subst h₁
    simpa using h₂
  | succ k₁ ih =>
    intro k₂ X Y Z h₁ h₂
    obtain ⟨W, hw, ht⟩ := h₁
    have : Transforms (k₁ + k₂) W Z := ih k₂ ht h₂
    exact (by rw [Nat.succ_add]; exact ⟨W, hw, this⟩)

/-- Scripts transfer to reversed sequences step by step. -/
theorem transforms_reverse : ∀ k {X Y : List α}, Transforms k X Y →
    Transforms k X.reverse Y.reverse := by
  intro k
  induction k with
  | zero => intro X Y h; exact congrArg List.reverse h
  | succ k ih =>
    intro X Y h
    obtain ⟨Z, hs, ht⟩ := h
    exact ⟨Z.reverse, editStep_reverse hs, ih ht⟩

/-- The empty sequence becomes `Y` by `|Y|` inserts. -/
theorem transforms_ofNil : ∀ Y : List α, Transforms Y.length [] Y := by
  intro Y
  induction Y with
  | nil => rfl
  | cons y ys ih =>
    exact ⟨[y], EditStep.ins [] [] y, transforms_cons y ys.length ih⟩

/-- `X` becomes the empty sequence by `|X|` deletes. -/
theorem transforms_toNil : ∀ X : List α, Transforms X.length X [] := by
  intro X
  induction X with
  | nil => rfl
  | cons x xs ih => exact ⟨xs, EditStep.del [] xs x, ih⟩

/-- Achievability: there is a script of exactly `lev X Y` edit steps from `X`
to `Y` (strong induction on the total length). -/
theorem transforms_lev_aux (n : Nat) : ∀ X Y : List α,
    X.length + Y.length ≤ n → Transforms (lev X Y) X Y := by
  induction n with
  | zero =>
    intro X Y h
    have hX : X = [] := by cases X with
      | nil => rfl
      | cons x xs => simp at h
    have hY : Y = [] := by cases Y with
      | nil => rfl
      | cons y ys => cases X <;> simp at h
    subst hX; subst hY
    rfl
  | succ n ih =>
    intro X Y h
    cases X with
    | nil =>
      rw [lev_nil_left]
      exact transforms_ofNil Y
    | cons x xs =>
      cases Y with
      | nil =>
        rw [lev_nil_right]
        exact transforms_toNil (x :: xs)
      | cons y ys =>
        rw [lev_cons_cons]
        by_cases hxy : x = y
        · rw [if_pos hxy]
          subst hxy
          exact transforms_cons x (lev xs ys) (ih xs ys (by simp at h; omega))
        · rw [if_neg hxy]
          have hd : lev xs (y :: ys) + 1 = lev xs (y :: ys) + 1 := rfl
          have hmin : min (lev xs (y :: ys) + 1) (min (lev (x :: xs) ys + 1) (lev xs ys + 1))
              = lev xs (y :: ys) + 1
            ∨ min (lev xs (y :: ys) + 1) (min (lev (x :: xs) ys + 1) (lev xs ys + 1))
              = lev (x :: xs) ys + 1
            ∨ min (lev xs (y :: ys) + 1) (min (lev (x :: xs) ys + 1) (lev xs ys + 1))
              = lev xs ys + 1 := by omega
          rcases hmin with hm | hm | hm <;> rw [hm]
          · -- delete x first
            exact ⟨xs, EditStep.del [] xs x, ih xs (y :: ys) (by simp at h ⊢; omega)⟩
          · -- insert y first
            exact ⟨y :: x :: xs, EditStep.ins [] (x :: xs) y,
              transforms_cons y (lev (x :: xs) ys) (ih (x :: xs) ys (by simp at h ⊢; omega))⟩
          · -- substitute x by y first
            exact ⟨y :: xs, EditStep.sub [] xs x y,
              transforms_cons y (lev xs ys) (ih xs ys (by simp at h; omega))⟩

/-- Achievability, packaged. -/
theorem transforms_lev (X Y : List α) : Transforms (lev X Y) X Y :=
  transforms_lev_aux (X.length + Y.length) X Y le_rfl

/-- Optimality: no script from `X` to `Y` is shorter than `lev X Y`. -/
theorem lev_le_of_transforms : ∀ k (X Y : List α), Transforms k X Y →
    lev X Y ≤ k := by
  intro k
  induction k with
  | zero =>
    intro X Y h
    subst h
    rw [lev_self]
  | succ k ih =>
    intro X Y h
    obtain ⟨Z, hs, ht⟩ := h
    have h1 := lev_step_le hs Y
    have h2 := ih Z Y ht
    omega

/-- Row 0 of the table is `0, 1, 2, …`, as initialised by the source. -/
theorem dpTable_zero (A B : List α) (j : Nat) : dpTable A B 0 j = j := rfl

/-- Unfolding one row step of the table. -/
theorem dpTable_succ (A B : List α) (i : Nat) :
    dpTable A B (i + 1) = dpRow B (dpTable A B i) (A.getD i default) := rfl

/-- Column 0 of the table is `0, 1, 2, …`, as initialised by the source. -/
theorem dpTable_col0 (A B : List α) : ∀ i, dpTable A B i 0 = i := by
  intro i
  induction i with
  | zero => rfl
  | succ i ih =>
    show dpRow B (dpTable A B i) (A.getD i default) 0 = i + 1
    show dpTable A B i 0 + 1 = i + 1
    rw [ih]

/-- The source's cell recurrence, read off the definition. -/
theorem dpTable_cell (A B : List α) (i j : Nat) :
    dpTable A B (i + 1) (j + 1) =
      if A.getD i default = B.getD j default then dpTable A B i j
      else min (dpTable A B i (j + 1) + 1)
        (min (dpTable A B (i + 1) j + 1) (dpTable A B i j + 1)) := rfl

/-- Taking one more element and reversing conses that element in front. -/
theorem take_succ_reverse (A : List α) (i : Nat) (h : i < A.length) :
    (A.take (i + 1)).reverse = A[i] :: (A.take i).reverse := by
  rw [List.take_succ, List.getElem?_eq_getElem h]
  simp

/-- The table cell `dp[i][j]` is the reference distance between the reversed
`i`-prefix of `A` and the reversed `j`-prefix of `B`. -/
theorem dpTable_eq_lev (A B : List α) : ∀ i j, i ≤ A.length → j ≤ B.length →
    dpTable A B i j = lev ((A.take i).reverse) ((B.take j).reverse) := by
  intro i
  induction i with
  | zero =>
    intro j _ hj
    rw [dpTable_zero]
    simp [lev_nil_left, List.length_take]
    omega
  | succ i ihi =>
    intro j
    induction j with
    | zero =>
      intro hi _
      rw [dpTable_col0]
      rw [List.take_zero]
      show (i + 1 : Nat) = lev ((A.take (i+1)).reverse) ([] : List α).reverse
      rw [List.reverse_nil, lev_nil_right]
      simp [List.length_take]
      omega
    | succ j ihj =>
      intro hi hj
      have hi2 : i < A.length := by omega
      have hj2 : j < B.length := by omega
      rw [dpTable_cell]
      rw [List.getD_eq_getElem A default hi2, List.getD_eq_getElem B default hj2]
      rw [take_succ_reverse A i hi2, take_succ_reverse B j hj2]
      rw [lev_cons_cons]
      by_cases hab : A[i] = B[j]
      · rw [if_pos hab, if_pos hab]
        exact ihi j (by omega) (by omega)
      · rw [if_neg hab, if_neg hab]
        rw [ihi (j + 1) (by omega) (by omega), ihi j (by omega) (by omega),
          ihj (by omega) (by omega)]
        rw [take_succ_reverse B j hj2, take_succ_reverse A i hi2]

/-- The returned distance equals the reference distance of the reversed
sequences. -/
theorem lwo_fst_eq_lev (A B : List α) :
    (levenshtein_with_operations A B).1 = lev A.reverse B.reverse := by
  show dpTable A B A.length B.length = lev A.reverse B.reverse
  rw [dpTable_eq_lev A B A.length B.length le_rfl le_rfl, List.take_length, List.take_length]

/-- The returned distance is the least script length: achieved by some
script, and a lower bound for every script. -/
theorem lwo_isLeast (A B : List α) :
    Transforms ((levenshtein_with_operations A B).1) A B ∧
      ∀ k, Transforms k A B → (levenshtein_with_operations A B).1 ≤ k := by
  constructor
  · rw [lwo_fst_eq_lev]
    have h := transforms_lev A.reverse B.reverse
    have h2 := transforms_reverse (lev A.reverse B.reverse) h
    simpa using h2
  · intro k hk
    rw [lwo_fst_eq_lev]
    exact lev_le_of_transforms k A.reverse B.reverse
      (transforms_reverse k hk)

/-- Progress: whenever the loop guard `i > 0 or j > 0` holds, the first,
second, third or fourth elif condition holds on the table built by the
recurrence, so the loop body always moves the cursor. -/
theorem stepCond_holds (A B : List α) : ∀ i j, 0 < i ∨ 0 < j →
    StepCond A B i j := by
  intro i j hij
  cases i with
  | zero =>
    cases j with
    | zero => omega
    | succ j =>
      right; right; right
      refine ⟨by omega, ?_⟩
      rw [dpTable_zero, dpTable_zero]
      omega
  | succ i =>
    cases j with
    | zero =>
      right; right; left
      refine ⟨by omega, ?_⟩
      rw [dpTable_col0, dpTable_col0]
      omega
    | succ j =>
      by_cases hc : A.getD i default = B.getD j default
      · left
        exact ⟨by omega, by omega, by simpa using hc⟩
      · have hcell := dpTable_cell A B i j
        rw [if_neg hc] at hcell
        have hcase : dpTable A B (i + 1) (j + 1) = dpTable A B i (j + 1) + 1
            ∨ dpTable A B (i + 1) (j + 1) = dpTable A B (i + 1) j + 1
            ∨ dpTable A B (i + 1) (j + 1) = dpTable A B i j + 1 := by omega
        rcases hcase with hm | hm | hm
        · right; right; left
          exact ⟨by omega, by simpa using hm⟩
        · right; right; right
          exact ⟨by omega, by simpa using hm⟩
        · right; left
          exact ⟨by omega, by omega, by simpa using hm⟩

/-- With fuel at least `i + j` the backtrace loop reaches `(0, 0)` and
returns an operation list. -/
theorem backAux_some (A B : List α) : ∀ fuel i j, i + j ≤ fuel →
    ∃ ops, backAux A B fuel i j = some ops := by
  intro fuel
  induction fuel with
  | zero =>
    intro i j h
    have hi : i = 0 := by omega
    have hj : j = 0 := by omega
    subst hi; subst hj
    exact ⟨[], rfl⟩
  | succ fuel ih =>
    intro i j h
    by_cases h00 : i = 0 ∧ j = 0
    · rw [backAux, if_pos h00]
      exact ⟨[], rfl⟩
    · have hsc := stepCond_holds A B i j (by omega)
      rw [backAux, if_neg h00]
      by_cases h1 : 0 < i ∧ 0 < j ∧ A.getD (i - 1) default = B.getD (j - 1) default
      · rw [if_pos h1]
        exact ih (i - 1) (j - 1) (by omega)
      · rw [if_neg h1]
        by_cases h2 : 0 < i ∧ 0 < j ∧ dpTable A B i j = dpTable A B (i - 1) (j - 1) + 1
        · rw [if_pos h2]
          obtain ⟨ops, hops⟩ := ih (i - 1) (j - 1) (by omega)
          exact ⟨_, by rw [hops]; rfl⟩
        · rw [if_neg h2]
          by_cases h3 : 0 < i ∧ dpTable A B i j = dpTable A B (i - 1) j + 1
          · rw [if_pos h3]
            obtain ⟨ops, hops⟩ := ih (i - 1) j (by omega)
            exact ⟨_, by rw [hops]; rfl⟩
          · rw [if_neg h3]
            by_cases h4 : 0 < j ∧ dpTable A B i j = dpTable A B i (j - 1) + 1
            · rw [if_pos h4]
              obtain ⟨ops, hops⟩ := ih i (j - 1) (by omega)
              exact ⟨_, by rw [hops]; rfl⟩
            · exfalso
              rcases hsc with hs | hs | hs | hs
              · exact h1 hs
              · exact h2 hs
              · exact h3 hs
              · exact h4 hs

/-- Along the backtrace, the number of emitted operations equals the table
value at the cursor: matches are free, every other transition pays one. -/
theorem backAux_length (A B : List α) : ∀ fuel i j ops,
    backAux A B fuel i j = some ops → ops.length = dpTable A B i j := by
  intro fuel
  induction fuel with
  | zero =>
    intro i j ops h
    by_cases h00 : i = 0 ∧ j = 0
    · rw [backAux, if_pos h00] at h
      obtain ⟨hi, hj⟩ := h00
      subst hi; subst hj
      cases h
      rfl
    · rw [backAux, if_neg h00] at h
      cases h
  | succ fuel ih =>
    intro i j ops h
    by_cases h00 : i = 0 ∧ j = 0
    · rw [backAux, if_pos h00] at h
      obtain ⟨hi, hj⟩ := h00
      subst hi; subst hj
      cases h
      rfl
    · rw [backAux, if_neg h00] at h
      by_cases h1 : 0 < i ∧ 0 < j ∧ A.getD (i - 1) default = B.getD (j - 1) default
      · rw [if_pos h1] at h
        have hrec := ih (i - 1) (j - 1) ops h
        obtain ⟨hi, hj, hchar⟩ := h1
        obtain ⟨i, rfl⟩ : ∃ i2, i = i2 + 1 := ⟨i - 1, by omega⟩
        obtain ⟨j, rfl⟩ : ∃ j2, j = j2 + 1 := ⟨j - 1, by omega⟩
        simp only [Nat.add_sub_cancel] at hrec hchar
        rw [hrec, dpTable_cell, if_pos hchar]
      · rw [if_neg h1] at h
        by_cases h2 : 0 < i ∧ 0 < j ∧ dpTable A B i j = dpTable A B (i - 1) (j - 1) + 1
        · rw [if_pos h2] at h
          rw [Option.map_eq_some'] at h
          obtain ⟨ops2, hops2, rfl⟩ := h
          have hrec := ih (i - 1) (j - 1) ops2 hops2
          simp only [List.length_cons]
          omega
        · rw [if_neg h2] at h
          by_cases h3 : 0 < i ∧ dpTable A B i j = dpTable A B (i - 1) j + 1
          · rw [if_pos h3] at h
            rw [Option.map_eq_some'] at h
            obtain ⟨ops2, hops2, rfl⟩ := h
            have hrec := ih (i - 1) j ops2 hops2
            simp only [List.length_cons]
            omega
          · rw [if_neg h3] at h
            by_cases h4 : 0 < j ∧ dpTable A B i j = dpTable A B i (j - 1) + 1
            · rw [if_pos h4] at h
              rw [Option.map_eq_some'] at h
              obtain ⟨ops2, hops2, rfl⟩ := h
              have hrec := ih i (j - 1) ops2 hops2
              simp only [List.length_cons]
              omega
            · rw [if_neg h4] at h
              cases h

/-- Reversal does not change a `countP`. -/
theorem countP_reverse (p : EditOp α → Bool) : ∀ l : List (EditOp α),
    l.reverse.countP p = l.countP p := by
  intro l
  induction l with
  | nil => rfl
  | cons a l ih =>
    rw [List.reverse_cons, List.countP_append, List.countP_cons, ih, List.countP_cons]
    simp [List.countP_nil]

/-- Along the backtrace, deletes account for the surplus of consumed `A`
positions over consumed `B` positions: `#delete + j = #insert + i`. -/
theorem backAux_counts (A B : List α) : ∀ fuel i j ops,
    backAux A B fuel i j = some ops →
    ops.countP isDel + j = ops.countP isIns + i := by
  intro fuel
  induction fuel with
  | zero =>
    intro i j ops h
    by_cases h00 : i = 0 ∧ j = 0
    · rw [backAux, if_pos h00] at h
      obtain ⟨hi, hj⟩ := h00
      subst hi; subst hj
      cases h
      rfl
    · rw [backAux, if_neg h00] at h
      cases h
  | succ fuel ih =>
    intro i j ops h
    by_cases h00 : i = 0 ∧ j = 0
    · rw [backAux, if_pos h00] at h
      obtain ⟨hi, hj⟩ := h00
      subst hi; subst hj
      cases h
      rfl
    · rw [backAux, if_neg h00] at h
      by_cases h1 : 0 < i ∧ 0 < j ∧ A.getD (i - 1) default = B.getD (j - 1) default
      · rw [if_pos h1] at h
        have hrec := ih (i - 1) (j - 1) ops h
        omega
      · rw [if_neg h1] at h
        by_cases h2 : 0 < i ∧ 0 < j ∧ dpTable A B i j = dpTable A B (i - 1) (j - 1) + 1
        · rw [if_pos h2] at h
          rw [Option.map_eq_some'] at h
          obtain ⟨ops2, hops2, rfl⟩ := h
          have hrec := ih (i - 1) (j - 1) ops2 hops2
          rw [List.countP_cons, List.countP_cons]
          simp [isDel, isIns]
          omega
        · rw [if_neg h2] at h
          by_cases h3 : 0 < i ∧ dpTable A B i j = dpTable A B (i - 1) j + 1
          · rw [if_pos h3] at h
            rw [Option.map_eq_some'] at h
            obtain ⟨ops2, hops2, rfl⟩ := h
            have hrec := ih (i - 1) j ops2 hops2
            rw [List.countP_cons, List.countP_cons]
            simp [isDel, isIns]
            omega
          · rw [if_neg h3] at h
            by_cases h4 : 0 < j ∧ dpTable A B i j = dpTable A B i (j - 1) + 1
            · rw [if_pos h4] at h
              rw [Option.map_eq_some'] at h
              obtain ⟨ops2, hops2, rfl⟩ := h
              have hrec := ih i (j - 1) ops2 hops2
              rw [List.countP_cons, List.countP_cons]
              simp [isDel, isIns]
              omega
            · rw [if_neg h4] at h
              cases h

/-- Every operation the backtrace emits names original positions of `A`:
delete/substitute carry the 1-based index of the affected element of `A`
(and that element itself), inserts carry an anchor between 1 and `len A + 1`. -/
theorem backAux_posOK (A B : List α) : ∀ fuel i j, i ≤ A.length → ∀ ops,
    backAux A B fuel i j = some ops → ∀ op ∈ ops, PosOK A op := by
  intro fuel
  induction fuel with
  | zero =>
    intro i j _ ops h
    by_cases h00 : i = 0 ∧ j = 0
    · rw [backAux, if_pos h00] at h
      cases h
      intro op hop
      cases hop
    · rw [backAux, if_neg h00] at h
      cases h
  | succ fuel ih =>
    intro i j hi ops h
    by_cases h00 : i = 0 ∧ j = 0
    · rw [backAux, if_pos h00] at h
      cases h
      intro op hop
      cases hop
    · rw [backAux, if_neg h00] at h
      by_cases h1 : 0 < i ∧ 0 < j ∧ A.getD (i - 1) default = B.getD (j - 1) default
      · rw [if_pos h1] at h
        exact ih (i - 1) (j - 1) (by omega) ops h
      · rw [if_neg h1] at h
        by_cases h2 : 0 < i ∧ 0 < j ∧ dpTable A B i j = dpTable A B (i - 1) (j - 1) + 1
        · rw [if_pos h2] at h
          rw [Option.map_eq_some'] at h
          obtain ⟨ops2, hops2, rfl⟩ := h
          intro op hop
          rcases List.mem_cons.1 hop with rfl | hmem
          · show A[i - 1]? = some (A.getD (i - 1) default)
            have hlt : i - 1 < A.length := by omega
            rw [List.getElem?_eq_getElem hlt, List.getD_eq_getElem A default hlt]
          · exact ih (i - 1) (j - 1) (by omega) ops2 hops2 op hmem
        · rw [if_neg h2] at h
          by_cases h3 : 0 < i ∧ dpTable A B i j = dpTable A B (i - 1) j + 1
          · rw [if_pos h3] at h
            rw [Option.map_eq_some'] at h
            obtain ⟨ops2, hops2, rfl⟩ := h
            intro op hop
            rcases List.mem_cons.1 hop with rfl | hmem
            · show A[i - 1]? = some (A.getD (i - 1) default)
              have hlt : i - 1 < A.length := by omega
              rw [List.getElem?_eq_getElem hlt, List.getD_eq_getElem A default hlt]
            · exact ih (i - 1) j (by omega) ops2 hops2 op hmem
          · rw [if_neg h3] at h
            by_cases h4 : 0 < j ∧ dpTable A B i j = dpTable A B i (j - 1) + 1
            · rw [if_pos h4] at h
              rw [Option.map_eq_some'] at h
              obtain ⟨ops2, hops2, rfl⟩ := h
              intro op hop
              rcases List.mem_cons.1 hop with rfl | hmem
              · exact ⟨by omega, by omega⟩
              · exact ih i (j - 1) hi ops2 hops2 op hmem
            · rw [if_neg h4] at h
              cases h

/-- When every pending anchor lies strictly beyond the current position, the
patch pass copies the head element unchanged. -/
theorem patch_walk (ops : List (EditOp α)) (x : α) (Z : List α) (p : Nat)
    (h : ∀ op ∈ ops, p + 1 ≤ opPos op) :
    patch ops (x :: Z) p = (patch ops Z (p + 1)).map (fun t => x :: t) := by
  cases ops with
  | nil => rfl
  | cons op ops2 =>
    have hop : ¬(opPos op = p) := by
      have := h op (List.mem_cons_self op ops2)
      omega
    cases op with
    | insert q e =>
      show (if q = p then (patch ops2 (x :: Z) p).map (fun t => e :: t)
          else (patchOne (EditOp.insert q e) (patch ops2) Z (p + 1)).map (fun t => x :: t))
        = (patchOne (EditOp.insert q e) (patch ops2) Z (p + 1)).map (fun t => x :: t)
      rw [if_neg (by simpa [opPos] using hop)]
    | delete q a =>
      show (if q = p then (if x = a then patch ops2 Z (p + 1) else none)
          else (patchOne (EditOp.delete q a) (patch ops2) Z (p + 1)).map (fun t => x :: t))
        = (patchOne (EditOp.delete q a) (patch ops2) Z (p + 1)).map (fun t => x :: t)
      rw [if_neg (by simpa [opPos] using hop)]
    | substitute q a b =>
      show (if q = p then
            (if x = a then (patch ops2 Z (p + 1)).map (fun t => b :: t) else none)
          else (patchOne (EditOp.substitute q a b) (patch ops2) Z (p + 1)).map (fun t => x :: t))
        = (patchOne (EditOp.substitute q a b) (patch ops2) Z (p + 1)).map (fun t => x :: t)
      rw [if_neg (by simpa [opPos] using hop)]

/-- A substitute whose anchor is the current position fires at once. -/
theorem patch_fire_sub (a b : α) (q : Nat) (ops : List (EditOp α)) (Z : List α) :
    patch (EditOp.substitute q a b :: ops) (a :: Z) q
      = (patch ops Z (q + 1)).map (fun t => b :: t) := by
  show (if q = q then (if a = a then (patch ops Z (q + 1)).map (fun t => b :: t) else none)
      else (patchOne (EditOp.substitute q a b) (patch ops) Z (q + 1)).map (fun t => a :: t))
    = (patch ops Z (q + 1)).map (fun t => b :: t)
  rw [if_pos rfl, if_pos rfl]

/-- A delete whose anchor is the current position fires at once. -/
theorem patch_fire_del (a : α) (q : Nat) (ops : List (EditOp α)) (Z : List α) :
    patch (EditOp.delete q a :: ops) (a :: Z) q = patch ops Z (q + 1) := by
  show (if q = q then (if a = a then patch ops Z (q + 1) else none)
      else (patchOne (EditOp.delete q a) (patch ops) Z (q + 1)).map (fun t => a :: t))
    = patch ops Z (q + 1)
  rw [if_pos rfl, if_pos rfl]

/-- An insert whose anchor is the current position fires at once. -/
theorem patch_fire_ins (e : α) (q : Nat) (ops : List (EditOp α)) (Z : List α) :
    patch (EditOp.insert q e :: ops) Z q = (patch ops Z q).map (fun t => e :: t) := by
  cases Z with
  | nil =>
    show (if q = q then (patch ops [] q).map (fun t => e :: t) else none)
      = (patch ops [] q).map (fun t => e :: t)
    rw [if_pos rfl]
  | cons x Z =>
    show (if q = q then (patch ops (x :: Z) q).map (fun t => e :: t)
        else (patchOne (EditOp.insert q e) (patch ops) Z (q + 1)).map (fun t => x :: t))
      = (patch ops (x :: Z) q).map (fun t => e :: t)
    rw [if_pos rfl]

/-- Backtrace/patch invariant: if from cursor `(i, j)` the backtrace discovers
`disc`, then prefixing the reversed (application-order) operations to any
pending script `ops2` (whose anchors all lie beyond position `i`) turns the
`i`-prefix of `A`, continued by anything `ops2` maps to `W`, into the
`j`-prefix of `B` continued by `W`. -/
theorem backAux_patch (A B : List α) : ∀ fuel i j, i ≤ A.length → j ≤ B.length →
    ∀ disc, backAux A B fuel i j = some disc →
    ∀ ops2 Z W, (∀ op ∈ ops2, i + 1 ≤ opPos op) → patch ops2 Z (i + 1) = some W →
    patch (disc.reverse ++ ops2) (A.take i ++ Z) 1 = some (B.take j ++ W) := by
  intro fuel
  induction fuel with
  | zero =>
    intro i j hi hj disc h ops2 Z W hbound hpatch
    by_cases h00 : i = 0 ∧ j = 0
    · rw [backAux, if_pos h00] at h
      cases h
      obtain ⟨rfl, rfl⟩ := h00
      simpa using hpatch
    · rw [backAux, if_neg h00] at h
      cases h
  | succ fuel ih =>
    intro i j hi hj disc h ops2 Z W hbound hpatch
    by_cases h00 : i = 0 ∧ j = 0
    · rw [backAux, if_pos h00] at h
      cases h
      obtain ⟨rfl, rfl⟩ := h00
      simpa using hpatch
    · rw [backAux, if_neg h00] at h
      by_cases h1 : 0 < i ∧ 0 < j ∧ A.getD (i - 1) default = B.getD (j - 1) default
      · -- match transition
        rw [if_pos h1] at h
        obtain ⟨hi0, hj0, hchar⟩ := h1
        obtain ⟨i, rfl⟩ : ∃ i2, i = i2 + 1 := ⟨i - 1, by omega⟩
        obtain ⟨j, rfl⟩ : ∃ j2, j = j2 + 1 := ⟨j - 1, by omega⟩
        simp only [Nat.add_sub_cancel] at h hchar
        have hiA : i < A.length := by omega
        have hjB : j < B.length := by omega
        have hgetA : A.getD i default = A[i] := List.getD_eq_getElem A default hiA
        have hgetB : B.getD j default = B[j] := List.getD_eq_getElem B default hjB
        have hc : A[i] = B[j] := by rw [← hgetA, hchar, hgetB]
        have hw2 : patch ops2 (A[i] :: Z) (i + 1) = some (A[i] :: W) := by
          rw [patch_walk ops2 (A[i]) Z (i + 1)
            (by intro op hop; have := hbound op hop; omega)]
          rw [show i + 1 + 1 = i + 1 + 1 from rfl, hpatch]
          rfl
        have hih := ih i j (by omega) (by omega) disc h ops2 (A[i] :: Z) (A[i] :: W)
          (by intro op hop; have := hbound op hop; omega) hw2
        have hA : A.take (i + 1) ++ Z = A.take i ++ (A[i] :: Z) := by
          rw [List.take_succ, List.getElem?_eq_getElem hiA]
          simp only [Option.toList_some, List.append_assoc, List.singleton_append]
        have hB : B.take (j + 1) ++ W = B.take j ++ (B[j] :: W) := by
          rw [List.take_succ, List.getElem?_eq_getElem hjB]
          simp only [Option.toList_some, List.append_assoc, List.singleton_append]
        rw [hA, hB, ← hc]
        exact hih
      · rw [if_neg h1] at h
        by_cases h2 : 0 < i ∧ 0 < j ∧ dpTable A B i j = dpTable A B (i - 1) (j - 1) + 1
        · -- substitute transition
          rw [if_pos h2] at h
          rw [Option.map_eq_some'] at h
          obtain ⟨disc2, hd2, rfl⟩ := h
          obtain ⟨hi0, hj0, _⟩ := h2
          obtain ⟨i, rfl⟩ : ∃ i2, i = i2 + 1 := ⟨i - 1, by omega⟩
          obtain ⟨j, rfl⟩ : ∃ j2, j = j2 + 1 := ⟨j - 1, by omega⟩
          simp only [Nat.add_sub_cancel] at hd2 ⊢
          have hiA : i < A.length := by omega
          have hjB : j < B.length := by omega
          have hgetA : A.getD i default = A[i] := List.getD_eq_getElem A default hiA
          have hgetB : B.getD j default = B[j] := List.getD_eq_getElem B default hjB
          have hfire : patch (EditOp.substitute (i + 1) (A[i]) (B[j]) :: ops2)
              (A[i] :: Z) (i + 1) = some (B[j] :: W) := by
            rw [patch_fire_sub, hpatch]
            rfl
          have hbound2 : ∀ op ∈ EditOp.substitute (i + 1) (A[i]) (B[j]) :: ops2,
              i + 1 ≤ opPos op := by
            intro op hop
            rcases List.mem_cons.1 hop with rfl | hmem
            · simp [opPos]
            · have := hbound op hmem; omega
          have hih := ih i j (by omega) (by omega) disc2 hd2 _ (A[i] :: Z) (B[j] :: W)
            hbound2 hfire
          have hA : A.take (i + 1) ++ Z = A.take i ++ (A[i] :: Z) := by
            rw [List.take_succ, List.getElem?_eq_getElem hiA]
            simp only [Option.toList_some, List.append_assoc, List.singleton_append]
          have hB : B.take (j + 1) ++ W = B.take j ++ (B[j] :: W) := by
            rw [List.take_succ, List.getElem?_eq_getElem hjB]
            simp only [Option.toList_some, List.append_assoc, List.singleton_append]
          rw [List.reverse_cons, List.append_assoc, List.singleton_append, hA, hB,
            hgetA, hgetB]
          exact hih
        · rw [if_neg h2] at h
          by_cases h3 : 0 < i ∧ dpTable A B i j = dpTable A B (i - 1) j + 1
          · -- delete transition
            rw [if_pos h3] at h
            rw [Option.map_eq_some'] at h
            obtain ⟨disc2, hd2, rfl⟩ := h
            obtain ⟨hi0, _⟩ := h3
            obtain ⟨i, rfl⟩ : ∃ i2, i = i2 + 1 := ⟨i - 1, by omega⟩
            simp only [Nat.add_sub_cancel] at hd2 ⊢
            have hiA : i < A.length := by omega
            have hgetA : A.getD i default = A[i] := List.getD_eq_getElem A default hiA
            have hfire : patch (EditOp.delete (i + 1) (A[i]) :: ops2)
                (A[i] :: Z) (i + 1) = some W := by
              rw [patch_fire_del]
              exact hpatch
            have hbound2 : ∀ op ∈ EditOp.delete (i + 1) (A[i]) :: ops2,
                i + 1 ≤ opPos op := by
              intro op hop
              rcases List.mem_cons.1 hop with rfl | hmem
              · simp [opPos]
              · have := hbound op hmem; omega
            have hih := ih i j (by omega) (by omega) disc2 hd2 _ (A[i] :: Z) W
              hbound2 hfire
            have hA : A.take (i + 1) ++ Z = A.take i ++ (A[i] :: Z) := by
              rw [List.take_succ, List.getElem?_eq_getElem hiA]
              simp only [Option.toList_some, List.append_assoc, List.singleton_append]
            rw [List.reverse_cons, List.append_assoc, List.singleton_append, hA, hgetA]
            exact hih
          · rw [if_neg h3] at h
            by_cases h4 : 0 < j ∧ dpTable A B i j = dpTable A B i (j - 1) + 1
            · -- insert transition
              rw [if_pos h4] at h
              rw [Option.map_eq_some'] at h
              obtain ⟨disc2, hd2, rfl⟩ := h
              obtain ⟨hj0, _⟩ := h4
              obtain ⟨j, rfl⟩ : ∃ j2, j = j2 + 1 := ⟨j - 1, by omega⟩
              simp only [Nat.add_sub_cancel] at hd2 ⊢
              have hjB : j < B.length := by omega
              have hgetB : B.getD j default = B[j] := List.getD_eq_getElem B default hjB
              have hfire : patch (EditOp.insert (i + 1) (B[j]) :: ops2) Z (i + 1)
                  = some (B[j] :: W) := by
                rw [patch_fire_ins, hpatch]
                rfl
              have hbound2 : ∀ op ∈ EditOp.insert (i + 1) (B[j]) :: ops2,
                  i + 1 ≤ opPos op := by
                intro op hop
                rcases List.mem_cons.1 hop with rfl | hmem
                · simp [opPos]
                · have := hbound op hmem; omega
              have hih := ih i j (by omega) (by omega) disc2 hd2 _ Z (B[j] :: W)
                hbound2 hfire
              have hB : B.take (j + 1) ++ W = B.take j ++ (B[j] :: W) := by
                rw [List.take_succ, List.getElem?_eq_getElem hjB]
                simp only [Option.toList_some, List.append_assoc, List.singleton_append]
              rw [List.reverse_cons, List.append_assoc, List.singleton_append, hB, hgetB]
              exact hih
            · rw [if_neg h4] at h
              cases h

/-- The full function's script, applied by the original-anchor pass `patch`,
sends `A` to `B`. -/
theorem lwo_patch (A B : List α) : ∃ ops,
    (levenshtein_with_operations A B).2 = some ops ∧ patch ops A 1 = some B := by
  obtain ⟨disc, hdisc⟩ := backAux_some A B (A.length + B.length) A.length B.length le_rfl
  refine ⟨disc.reverse, ?_, ?_⟩
  · show (backAux A B (A.length + B.length) A.length B.length).map List.reverse
      = some disc.reverse
    rw [hdisc]
    rfl
  · have h := backAux_patch A B (A.length + B.length) A.length B.length le_rfl le_rfl
      disc hdisc [] [] [] (by intro op hop; cases hop) rfl
    simpa using h

/-- C1: for every pair of finite sequences `A` and `B`, the distance returned
by the engine (`dp[m][n]` of `levenshtein_with_operations`) equals the minimum
number of single-element insert, delete and substitute operations needed to
transform `A` into `B`: it is realised by some `Transforms` script and is a
lower bound for every such script. -/
theorem c1_distance_is_minimum (A B : List α) :
    Transforms ((levenshtein_with_operations A B).1) A B ∧
      ∀ k, Transforms k A B → (levenshtein_with_operations A B).1 ≤ k :=
  lwo_isLeast A B

/-- Witness for C1 at a concrete input: the distance for `cat → cart` is
achieved, and the lower-bound half applied to the one-insert script gives
`distance ≤ 1`. -/
theorem c1_distance_is_minimum_witness :
    Transforms ((levenshtein_with_operations ['c','a','t'] ['c','a','r','t']).1)
        ['c','a','t'] ['c','a','r','t'] ∧
      (levenshtein_with_operations ['c','a','t'] ['c','a','r','t']).1 ≤ 1 :=
  ⟨(c1_distance_is_minimum ['c','a','t'] ['c','a','r','t']).1,
    (c1_distance_is_minimum ['c','a','t'] ['c','a','r','t']).2 1
      ⟨['c','a','r','t'], EditStep.ins ['c','a'] ['t'] 'r', rfl⟩⟩

/-- C2 counterexample: for `A = ""` and `B = "ab"` the engine returns the
script `[Insert(1,'a'), Insert(1,'b')]`; applying it in order with the spec's
stated position convention (each insert position read against the string the
operation produces) yields `"ba"`, not `B = "ab"`. -/
theorem c2_counterexample :
    (levenshtein_with_operations ([] : List Char) ['a','b']).2
        = some [EditOp.insert 1 'a', EditOp.insert 1 'b'] ∧
      applySpec ([] : List Char) [EditOp.insert 1 'a', EditOp.insert 1 'b']
        = some ['b','a'] ∧
      (['b','a'] : List Char) ≠ ['a','b'] := by
  refine ⟨by decide, by decide, by decide⟩

/-- C2 (amended): applying the returned operations in order to `A`, with
every position read as a 1-based anchor into the ORIGINAL sequence `A`
(delete/substitute positions name the original element, insert positions name
the original insertion point, several inserts at one anchor applying in
script order), yields exactly `B`. -/
theorem c2_amended_patch_yields_B (A B : List α) : ∃ ops,
    (levenshtein_with_operations A B).2 = some ops ∧ patch ops A 1 = some B :=
  lwo_patch A B

/-- C3: the engine always returns a script, and its length equals the
returned distance (matches emit nothing, every other transition costs 1). -/
theorem c3_script_length_eq_distance (A B : List α) : ∃ ops,
    (levenshtein_with_operations A B).2 = some ops ∧
      ops.length = (levenshtein_with_operations A B).1 := by
  obtain ⟨disc, hdisc⟩ := backAux_some A B (A.length + B.length) A.length B.length le_rfl
  refine ⟨disc.reverse, ?_, ?_⟩
  · show (backAux A B (A.length + B.length) A.length B.length).map List.reverse
      = some disc.reverse
    rw [hdisc]
    rfl
  · rw [List.length_reverse]
    exact backAux_length A B (A.length + B.length) A.length B.length disc hdisc

/-- C4: the returned distance is symmetric in its two arguments. -/
theorem c4_distance_symmetric (A B : List α) :
    (levenshtein_with_operations A B).1 = (levenshtein_with_operations B A).1 := by
  have h1 := lwo_isLeast A B
  have h2 := lwo_isLeast B A
  have hab := h2.2 _ (transforms_symm _ h1.1)
  have hba := h1.2 _ (transforms_symm _ h2.1)
  omega

/-- C5: the returned distance satisfies the triangle inequality. -/
theorem c5_triangle_inequality (A B C : List α) :
    (levenshtein_with_operations A C).1 ≤
      (levenshtein_with_operations A B).1 + (levenshtein_with_operations B C).1 := by
  have h1 := lwo_isLeast A B
  have h2 := lwo_isLeast B C
  have h3 := lwo_isLeast A C
  exact h3.2 _ (transforms_trans _ _ h1.1 h2.1)

/-- C6: table invariants.  Row 0 and column 0 are strictly increasing
(`0, 1, 2, …`), and every interior cell is non-negative and within 1 of each
of its three predecessors (up, left, diagonal). -/
theorem c6_table_invariants (A B : List α) (i j : Nat)
    (hi : i < A.length) (hj : j < B.length) :
    dpTable A B (i + 1) 0 = dpTable A B i 0 + 1 ∧
    dpTable A B 0 (j + 1) = dpTable A B 0 j + 1 ∧
    0 ≤ dpTable A B (i + 1) (j + 1) ∧
    dpTable A B (i + 1) (j + 1) ≤ dpTable A B i (j + 1) + 1 ∧
    dpTable A B i (j + 1) ≤ dpTable A B (i + 1) (j + 1) + 1 ∧
    dpTable A B (i + 1) (j + 1) ≤ dpTable A B (i + 1) j + 1 ∧
    dpTable A B (i + 1) j ≤ dpTable A B (i + 1) (j + 1) + 1 ∧
    dpTable A B (i + 1) (j + 1) ≤ dpTable A B i j + 1 ∧
    dpTable A B i j ≤ dpTable A B (i + 1) (j + 1) + 1 := by
  have hcell : dpTable A B (i + 1) (j + 1)
      = lev (A[i] :: (A.take i).reverse) (B[j] :: (B.take j).reverse) := by
    rw [dpTable_eq_lev A B (i + 1) (j + 1) (by omega) (by omega),
      take_succ_reverse A i hi, take_succ_reverse B j hj]
  have hup : dpTable A B i (j + 1)
      = lev ((A.take i).reverse) (B[j] :: (B.take j).reverse) := by
    rw [dpTable_eq_lev A B i (j + 1) (by omega) (by omega), take_succ_reverse B j hj]
  have hleft : dpTable A B (i + 1) j
      = lev (A[i] :: (A.take i).reverse) ((B.take j).reverse) := by
    rw [dpTable_eq_lev A B (i + 1) j (by omega) (by omega), take_succ_reverse A i hi]
  have hdiag : dpTable A B i j = lev ((A.take i).reverse) ((B.take j).reverse) :=
    dpTable_eq_lev A B i j (by omega) (by omega)
  refine ⟨?_, ?_, Nat.zero_le _, ?_, ?_, ?_, ?_, ?_, ?_⟩
  · rw [dpTable_col0, dpTable_col0]
  · rw [dpTable_zero, dpTable_zero]
  · rw [hcell, hup]
    exact lev_cons_le _ _ _
  · rw [hcell, hup]
    exact lev_le_cons _ _ _
  · rw [hcell, hleft]
    exact lev_target_cons_le _ _ _
  · rw [hcell, hleft]
    exact lev_le_target_cons _ _ _
  · rw [hcell, hdiag]
    have hcc := lev_cons_cons (A[i]) (B[j]) ((A.take i).reverse) ((B.take j).reverse)
    by_cases hxy : A[i] = B[j]
    · rw [if_pos hxy] at hcc
      omega
    · rw [if_neg hxy] at hcc
      omega
  · rw [hcell, hdiag]
    have hcc := lev_cons_cons (A[i]) (B[j]) ((A.take i).reverse) ((B.take j).reverse)
    by_cases hxy : A[i] = B[j]
    · rw [if_pos hxy] at hcc
      omega
    · rw [if_neg hxy] at hcc
      have h1 := lev_le_target_cons (B[j]) ((A.take i).reverse) ((B.take j).reverse)
      have h2 := lev_le_cons (A[i]) ((A.take i).reverse) ((B.take j).reverse)
      omega

/-- Witness for C6 at `A = "a"`, `B = "b"`, `i = j = 0`. -/
theorem c6_table_invariants_witness :
    (0 < (['a'] : List Char).length) ∧ (0 < (['b'] : List Char).length) ∧
    (dpTable ['a'] ['b'] 1 0 = dpTable ['a'] ['b'] 0 0 + 1 ∧
     dpTable ['a'] ['b'] 0 1 = dpTable ['a'] ['b'] 0 0 + 1 ∧
     0 ≤ dpTable ['a'] ['b'] 1 1 ∧
     dpTable ['a'] ['b'] 1 1 ≤ dpTable ['a'] ['b'] 0 1 + 1 ∧
     dpTable ['a'] ['b'] 0 1 ≤ dpTable ['a'] ['b'] 1 1 + 1 ∧
     dpTable ['a'] ['b'] 1 1 ≤ dpTable ['a'] ['b'] 1 0 + 1 ∧
     dpTable ['a'] ['b'] 1 0 ≤ dpTable ['a'] ['b'] 1 1 + 1 ∧
     dpTable ['a'] ['b'] 1 1 ≤ dpTable ['a'] ['b'] 0 0 + 1 ∧
     dpTable ['a'] ['b'] 0 0 ≤ dpTable ['a'] ['b'] 1 1 + 1) :=
  ⟨by decide, by decide, c6_table_invariants ['a'] ['b'] 0 0 (by decide) (by decide)⟩

/-- C7: whenever the loop guard holds at least one of the four transition
conditions holds (`StepCond`), and the backtrace from `(i, j)` terminates
within `i + j` steps (each transition strictly decreases `i + j`). -/
theorem c7_backtrace_terminates (A B : List α) (i j : Nat) :
    ((0 < i ∨ 0 < j) → StepCond A B i j) ∧
      (backAux A B (i + j) i j).isSome = true := by
  constructor
  · exact stepCond_holds A B i j
  · obtain ⟨ops, hops⟩ := backAux_some A B (i + j) i j le_rfl
    rw [hops]
    rfl

/-- Witness for C7 at `A = "a"`, `B = "b"`, cursor `(1, 1)`. -/
theorem c7_backtrace_terminates_witness :
    ((0 : Nat) < 1 ∨ (0 : Nat) < 1) ∧ StepCond ['a'] ['b'] 1 1 ∧
      (backAux ['a'] ['b'] 2 1 1).isSome = true :=
  ⟨Or.inl (by decide),
    (c7_backtrace_terminates ['a'] ['b'] 1 1).1 (Or.inl (by decide)),
    (c7_backtrace_terminates ['a'] ['b'] 1 1).2⟩

/-- C8 counterexample: for `A = ""`, `B = "ab"` the second returned operation
is `Insert(1,'b')`, yet in the string produced at the moment that operation
applies (the trajectory string after both inserts, `['a','b']`) the element at
the recorded position 1 is `'a'`, not the inserted `'b'`: insert positions do
not index the resulting string. -/
theorem c8_counterexample :
    (levenshtein_with_operations ([] : List Char) ['a','b']).2
        = some [EditOp.insert 1 'a', EditOp.insert 1 'b'] ∧
      patch [EditOp.insert 1 'a', EditOp.insert 1 'b'] ([] : List Char) 1
        = some ['a','b'] ∧
      (['a','b'] : List Char)[0]? = some 'a' ∧ ('a' : Char) ≠ 'b' := by
  refine ⟨by decide, by decide, by decide, by decide⟩

/-- C8 (amended): every Delete/Substitute in the returned script records the
1-based index of the affected element in the ORIGINAL `A` (and carries that
element), and every Insert records an anchor `q` with `1 ≤ q ≤ len A + 1`
naming the insertion point before original position `q` of `A` — not an index
into the resulting string. -/
theorem c8_amended_positions_index_A (A B : List α) (ops : List (EditOp α))
    (hops : (levenshtein_with_operations A B).2 = some ops) :
    ∀ op ∈ ops, PosOK A op := by
  intro op hop
  obtain ⟨disc, hdisc⟩ := backAux_some A B (A.length + B.length) A.length B.length le_rfl
  have hrev : (levenshtein_with_operations A B).2 = some disc.reverse := by
    show (backAux A B (A.length + B.length) A.length B.length).map List.reverse
      = some disc.reverse
    rw [hdisc]
    rfl
  rw [hrev] at hops
  cases hops
  exact backAux_posOK A B (A.length + B.length) A.length B.length le_rfl disc hdisc
    op (List.mem_reverse.1 hop)

/-- Witness for C8 (amended) at `cat → cart`. -/
theorem c8_amended_positions_index_A_witness :
    ((levenshtein_with_operations ['c','a','t'] ['c','a','r','t']).2
        = some [EditOp.insert 3 'r']) ∧ PosOK ['c','a','t'] (EditOp.insert 3 'r') :=
  ⟨by decide,
    c8_amended_positions_index_A ['c','a','t'] ['c','a','r','t'] [EditOp.insert 3 'r']
      (by decide) (EditOp.insert 3 'r') (by decide)⟩

/-- C9 counterexample: on `A = "cat"`, `B = "cart"` the engine does not return
the script `[Insert(2,'r')]` claimed by the spec (the distance is 1, but the
emitted operation is `Insert(3,'r')`). -/
theorem c9_counterexample :
    ¬ ((levenshtein_with_operations ['c','a','t'] ['c','a','r','t']).1 = 1 ∧
       (levenshtein_with_operations ['c','a','t'] ['c','a','r','t']).2
         = some [EditOp.insert 2 'r']) := by
  decide

/-- C9 (amended): on `A = "cat"`, `B = "cart"` the engine returns distance 1
and the single operation `Insert(3,'r')` (one insertion, at the anchor after
the two matched characters — not a substitute-plus-insert pair). -/
theorem c9_amended_cat_cart :
    levenshtein_with_operations ['c','a','t'] ['c','a','r','t']
      = (1, some [EditOp.insert 3 'r']) := by
  decide

/-- C10: in the returned script, the number of deletes minus the number of
inserts equals `len A - len B`. -/
theorem c10_delete_insert_balance (A B : List α) : ∃ ops,
    (levenshtein_with_operations A B).2 = some ops ∧
      (ops.countP isDel : Int) - ops.countP isIns
        = (A.length : Int) - B.length := by
  obtain ⟨disc, hdisc⟩ := backAux_some A B (A.length + B.length) A.length B.length le_rfl
  refine ⟨disc.reverse, ?_, ?_⟩
  · show (backAux A B (A.length + B.length) A.length B.length).map List.reverse
      = some disc.reverse
    rw [hdisc]
    rfl
  · have hc := backAux_counts A B (A.length + B.length) A.length B.length disc hdisc
    rw [countP_reverse, countP_reverse]
    omega

end Proofs

